import Mathlib

/-!
Shallow embedding of the real-time cryptocurrency price-tracking pipeline
(feed ingestion, bounded history, market-snapshot derivation, trade ledger,
animation scheduler, scale builder, tooltip lookup) from
`src/features/home/core/hooks/index.ts`,
`src/features/home/core/utils/index.ts`,
`src/features/home/components/chart-panel/chart-container.tsx` and
`src/features/home/components/chart-panel/chart-tooltip.tsx`.

Numbers are modelled as rationals (`ℚ`); JavaScript decimal literals such as
`1.001` become exact rationals (`1001/1000`).  `Math.random()` draws are passed
in as explicit parameters.  React state updates become explicit state passing.
-/

namespace Crypto

/-- A `(time, price)` sample — `IPricePoint` / `IChartData` in the source. -/
structure PricePoint where
  time : ℚ
  price : ℚ
deriving DecidableEq, Repr

/-- The market snapshot `IMarketData` held by `useTrades`. -/
structure MarketData where
  volume24h : ℚ
  marketCap : ℚ
  high24h : ℚ
  low24h : ℚ
deriving DecidableEq, Repr

/-- The initial `useState` value of `marketData` in `useTrades`:
`{ volume24h: 1.2e9, marketCap: 45.8e9, high24h: 52450, low24h: 48920 }`. -/
def initialMarketData : MarketData :=
  { volume24h := 1200000000
    marketCap := 45800000000
    high24h := 52450
    low24h := 48920 }

/-- One call of the `updateMarketData` state updater, from the source:
the snapshot is rebuilt only when
`price > prev.high24h * 1.001 || price < prev.low24h * 0.999`; otherwise the
previous snapshot object itself is returned.  The first component of the
result records whether a fresh snapshot object was constructed (the branch
taken), i.e. the reference-level change React's change detection observes;
`r1` and `r2` are the two `Math.random()` draws used for the volume and
market-cap drift. -/
def updateMarketDataRef (r1 r2 : ℚ) (prev : MarketData) (price : ℚ) :
    Bool × MarketData :=
  if price > prev.high24h * (1001/1000) ∨ price < prev.low24h * (999/1000) then
    (true,
      { volume24h := prev.volume24h * (1 + (r1 - 1/2) * (1/100))
        marketCap := prev.marketCap * (1 + (r2 - 1/2) * (1/200))
        high24h := max prev.high24h price
        low24h := min prev.low24h price })
  else
    (false, prev)

/-- The value-level result of one `updateMarketData` call. -/
def updateMarketData (r1 r2 : ℚ) (prev : MarketData) (price : ℚ) : MarketData :=
  (updateMarketDataRef r1 r2 prev price).2

/-- Folding a whole session of `updateMarketData` calls; each list entry is
`(price, r1, r2)`. -/
def runMarketUpdates (s0 : MarketData) (updates : List (ℚ × ℚ × ℚ)) : MarketData :=
  updates.foldl (fun s u => updateMarketData u.2.1 u.2.2 s u.1) s0

/-- The `setHistory` updater inside `startMockData`:
`const next = [...prev, tick]; return next.length > maxPoints ?
next.slice(next.length - maxPoints) : next`. -/
def appendHistory (maxPoints : ℕ) (prev : List PricePoint) (tick : PricePoint) :
    List PricePoint :=
  let next := prev ++ [tick]
  if next.length > maxPoints then next.drop (next.length - maxPoints) else next

/-- Feeding a whole sequence of ticks through the history buffer, starting from
the empty history. -/
def runHistory (maxPoints : ℕ) (ticks : List PricePoint) : List PricePoint :=
  ticks.foldl (appendHistory maxPoints) []

/-- The `setTrades` updater inside `addTrade`:
`[newTrade, ...prev].slice(0, 10)`. -/
def addTrade {α : Type} (newTrade : α) (prev : List α) : List α :=
  (newTrade :: prev).take 10

/-- Calling `addTrade` once per element of `ts`, in order, starting from the
empty trade list. -/
def runTrades {α : Type} (ts : List α) : List α :=
  ts.foldl (fun acc t => addTrade t acc) []

theorem appendHistory_eq (m : ℕ) (acc : List PricePoint) (t : PricePoint) :
    appendHistory m acc t = (acc ++ [t]).drop (acc.length + 1 - m) := by
  unfold appendHistory
  simp only [List.length_append, List.length_singleton]
  split
  · rfl
  · rename_i hle
    have : acc.length + 1 - m = 0 := by omega
    rw [this, List.drop_zero]

theorem appendHistory_length_le (m : ℕ) (acc : List PricePoint) (t : PricePoint) :
    (appendHistory m acc t).length ≤ m := by
  rw [appendHistory_eq m acc t]
  simp only [List.length_drop, List.length_append, List.length_singleton]
  omega

theorem foldl_appendHistory_eq (m : ℕ) (ticks : List PricePoint) :
    ∀ acc : List PricePoint, acc.length ≤ m →
      ticks.foldl (appendHistory m) acc =
        (acc ++ ticks).drop (acc.length + ticks.length - m) := by
  induction ticks with
  | nil =>
      intro acc h
      simp only [List.foldl_nil, List.append_nil, List.length_nil, Nat.add_zero]
      have : acc.length - m = 0 := by omega
      rw [this, List.drop_zero]
  | cons t ts ih =>
      intro acc h
      rw [List.foldl_cons, ih _ (appendHistory_length_le m acc t),
        appendHistory_eq m acc t]
      have hlen : ((acc ++ [t]).drop (acc.length + 1 - m)).length
          = acc.length + 1 - (acc.length + 1 - m) := by
        simp [List.length_drop]
      rw [hlen]
      have hle : acc.length + 1 - m ≤ (acc ++ [t]).length := by
        simp only [List.length_append, List.length_singleton]; omega
      rw [← List.drop_append_of_le_length hle, List.drop_drop]
      have harr : acc.length + 1 - m
            + (acc.length + 1 - (acc.length + 1 - m) + ts.length - m)
          = acc.length + (t :: ts).length - m := by
        simp only [List.length_cons]; omega
      rw [harr, List.append_assoc, List.singleton_append]

theorem runHistory_eq (m : ℕ) (ticks : List PricePoint) :
    runHistory m ticks = ticks.drop (ticks.length - m) := by
  unfold runHistory
  rw [foldl_appendHistory_eq m ticks [] (by simp)]
  simp

theorem foldl_addTrade_eq {α : Type} (ts : List α) :
    ∀ acc : List α, acc.length ≤ 10 →
      ts.foldl (fun acc t => addTrade t acc) acc = (ts.reverse ++ acc).take 10 := by
  induction ts with
  | nil =>
      intro acc h
      simp only [List.foldl_nil, List.reverse_nil, List.nil_append]
      exact (List.take_of_length_le h).symm
  | cons t ts ih =>
      intro acc h
      rw [List.foldl_cons, ih _ (by simp [addTrade])]
      show (ts.reverse ++ addTrade t acc).take 10
          = ((t :: ts).reverse ++ acc).take 10
      rw [List.reverse_cons, List.append_assoc, List.singleton_append]
      unfold addTrade
      rw [List.take_append_eq_append_take, List.take_append_eq_append_take]
      congr 1
      rw [List.take_take]
      congr 1
      omega

theorem runTrades_eq {α : Type} (ts : List α) :
    runTrades ts = ts.reverse.take 10 := by
  unfold runTrades
  rw [foldl_addTrade_eq _ _ (by simp)]
  simp

/-- The mutable refs driving the animation in `ChartContainer` /
`useChartBuilder`: `dataQueue` (pending points, head played next), the working
series held as the path's datum, and the `isAnimating` flag. -/
structure AnimState where
  dataQueue : List ℚ
  series : List ℚ
  isAnimating : Bool
deriving DecidableEq, Repr

/-- One call of `runAnimationCycle`, taken to the end of its transition: an
empty queue clears `isAnimating` and stops; otherwise the head is `shift`ed
off the queue, appended to the current datum (`newData = [...currentData,
pointToAdd]`) and, on transition end, the datum becomes
`newData.slice(1)`, after which the cycle re-runs. -/
def runAnimationCycleStep (s : AnimState) : AnimState :=
  match s.dataQueue with
  | [] => { s with isAnimating := false }
  | pointToAdd :: rest =>
      let newData := s.series ++ [pointToAdd]
      let dataAfterShift := newData.drop 1
      { dataQueue := rest, series := dataAfterShift, isAnimating := true }

/-- Iterating `n` completed playback cycles. -/
def runCycles (s : AnimState) : ℕ → AnimState
  | 0 => s
  | n + 1 => runCycles (runAnimationCycleStep s) n

/-- The transition duration `500 / (1 + dataQueue.current.length * 0.1)` used
by `runAnimationCycle`, as a function of the queue depth measured after the
`shift`. -/
def scrollDuration (queueDepth : ℕ) : ℚ :=
  500 / (1 + (queueDepth : ℚ) * (1/10))

/-- The duration of the transition started by one `runAnimationCycle` call
(`none` when the queue is empty and no transition starts): the queue depth
read by `500 / (1 + dataQueue.current.length * 0.1)` is the length remaining
after the head was `shift`ed off. -/
def cycleDuration (s : AnimState) : Option ℚ :=
  match s.dataQueue with
  | [] => none
  | _ :: rest => some (scrollDuration rest.length)

theorem runAnimationCycleStep_series_length (s : AnimState) :
    (runAnimationCycleStep s).series.length = s.series.length := by
  unfold runAnimationCycleStep
  cases s.dataQueue with
  | nil => rfl
  | cons q qs => simp

theorem runCycles_series_length (n : ℕ) :
    ∀ s : AnimState, (runCycles s n).series.length = s.series.length := by
  induction n with
  | zero => intro s; rfl
  | succ n ih =>
      intro s
      rw [runCycles, ih, runAnimationCycleStep_series_length]

theorem runCycles_eq (n : ℕ) :
    ∀ s : AnimState, n ≤ s.dataQueue.length →
      (runCycles s n).dataQueue = s.dataQueue.drop n ∧
      (runCycles s n).series = (s.series ++ s.dataQueue.take n).drop n := by
  induction n with
  | zero => intro s _; simp [runCycles]
  | succ n ih =>
      intro s h
      cases hq : s.dataQueue with
      | nil => rw [hq] at h; simp at h
      | cons q qs =>
          rw [hq] at h
          have hstep : runAnimationCycleStep s =
              ⟨qs, (s.series ++ [q]).drop 1, true⟩ := by
            unfold runAnimationCycleStep
            rw [hq]
          have hn : n ≤ qs.length := by
            simp only [List.length_cons] at h; omega
          rw [runCycles, hstep]
          obtain ⟨hqueue, hseries⟩ := ih ⟨qs, (s.series ++ [q]).drop 1, true⟩ hn
          refine ⟨?_, ?_⟩
          · rw [hqueue]
            show qs.drop n = (q :: qs).drop (n + 1)
            rw [List.drop_succ_cons]
          · rw [hseries]
            show ((s.series ++ [q]).drop 1 ++ qs.take n).drop n
                = (s.series ++ (q :: qs).take (n + 1)).drop (n + 1)
            have h1 : (1 : ℕ) ≤ (s.series ++ [q]).length := by
              simp
            rw [← List.drop_append_of_le_length h1, List.drop_drop,
              List.take_succ_cons, List.append_assoc, List.singleton_append,
              Nat.add_comm 1 n]

theorem getLast?_drop_of_lt {α : Type} :
    ∀ (l : List α) (n : ℕ), n < l.length → (l.drop n).getLast? = l.getLast? := by
  intro l
  induction l with
  | nil => intro n h; simp at h
  | cons a as ih =>
      intro n h
      cases n with
      | zero => rfl
      | succ n =>
          simp only [List.length_cons] at h
          have hn : n < as.length := by omega
          rw [List.drop_succ_cons, ih n hn]
          cases as with
          | nil => simp at hn
          | cons b bs => rw [List.getLast?_cons_cons]

theorem runCycles_rendered_point (s : AnimState) (i : ℕ)
    (hi : i < s.dataQueue.length) (hs : s.series ≠ []) :
    (runCycles s (i + 1)).series.getLast? = s.dataQueue[i]? := by
  obtain ⟨_, hseries⟩ := runCycles_eq (i + 1) s (by omega)
  rw [hseries]
  have h2 : (s.dataQueue.take (i + 1)).length = i + 1 := by
    rw [List.length_take]; omega
  have hlen : i + 1 < (s.series ++ s.dataQueue.take (i + 1)).length := by
    have h1 : 0 < s.series.length := List.length_pos.mpr hs
    simp only [List.length_append, h2]
    omega
  rw [getLast?_drop_of_lt _ _ hlen]
  have htne : s.dataQueue.take (i + 1) ≠ [] := by
    intro hcon
    rw [hcon] at h2
    simp at h2
  rw [List.getLast?_append_of_ne_nil _ htne, List.getLast?_eq_getElem?, h2]
  simp only [Nat.add_sub_cancel]
  rw [List.getElem?_take_of_lt (by omega)]

/-- The latest price read by `createScales`:
`history[history.length - 1].price` (defaulting to 0 for the empty history,
which the component rules out before calling). -/
def currentPrice (history : List PricePoint) : ℚ :=
  (history.getLast?.map PricePoint.price).getD 0

/-- The lower end of `d3.extent(history, (d) => d.price)`. -/
def minPrice (history : List PricePoint) : ℚ :=
  match history.map PricePoint.price with
  | [] => 0
  | p :: ps => ps.foldl min p

/-- The upper end of `d3.extent(history, (d) => d.price)`. -/
def maxPrice (history : List PricePoint) : ℚ :=
  match history.map PricePoint.price with
  | [] => 0
  | p :: ps => ps.foldl max p

/-- The padding used by `createScales`:
`currentPrice * Math.max(0.001, volatility * 0.01)` with
`volatility = Math.abs(priceChange) / 100`. -/
def yPaddingAmount (history : List PricePoint) (priceChange : ℚ) : ℚ :=
  currentPrice history * max (1/1000) (|priceChange| / 100 * (1/100))

/-- The y-scale domain constructed by `createScales`:
`[Math.min(currentPrice - padding, priceRange[0]),
  Math.max(currentPrice + padding, priceRange[1])]`. -/
def yDomain (history : List PricePoint) (priceChange : ℚ) : ℚ × ℚ :=
  (min (currentPrice history - yPaddingAmount history priceChange) (minPrice history),
   max (currentPrice history + yPaddingAmount history priceChange) (maxPrice history))

theorem foldl_min_le_init (ps : List ℚ) : ∀ a : ℚ, ps.foldl min a ≤ a := by
  induction ps with
  | nil => intro a; exact le_refl a
  | cons x xs ih =>
      intro a
      exact le_trans (ih (min a x)) (min_le_left a x)

theorem foldl_min_le_mem (ps : List ℚ) :
    ∀ (a p : ℚ), p ∈ ps → ps.foldl min a ≤ p := by
  induction ps with
  | nil => intro a p hp; simp at hp
  | cons x xs ih =>
      intro a p hp
      rcases List.mem_cons.mp hp with h | h
      · subst h
        exact le_trans (foldl_min_le_init xs (min a p)) (min_le_right a p)
      · exact ih (min a x) p h

theorem le_foldl_max_init (ps : List ℚ) : ∀ a : ℚ, a ≤ ps.foldl max a := by
  induction ps with
  | nil => intro a; exact le_refl a
  | cons x xs ih =>
      intro a
      exact le_trans (le_max_left a x) (ih (max a x))

theorem le_foldl_max_mem (ps : List ℚ) :
    ∀ (a p : ℚ), p ∈ ps → p ≤ ps.foldl max a := by
  induction ps with
  | nil => intro a p hp; simp at hp
  | cons x xs ih =>
      intro a p hp
      rcases List.mem_cons.mp hp with h | h
      · subst h
        exact le_trans (le_max_right a p) (le_foldl_max_init xs (max a p))
      · exact ih (max a x) p h

theorem minPrice_le_mem (history : List PricePoint) (pt : PricePoint)
    (hpt : pt ∈ history) : minPrice history ≤ pt.price := by
  cases history with
  | nil => simp at hpt
  | cons h hs =>
      show (hs.map PricePoint.price).foldl min h.price ≤ pt.price
      rcases List.mem_cons.mp hpt with he | he
      · subst he
        exact foldl_min_le_init _ _
      · exact foldl_min_le_mem _ _ _ (List.mem_map_of_mem PricePoint.price he)

theorem le_maxPrice_mem (history : List PricePoint) (pt : PricePoint)
    (hpt : pt ∈ history) : pt.price ≤ maxPrice history := by
  cases history with
  | nil => simp at hpt
  | cons h hs =>
      show pt.price ≤ (hs.map PricePoint.price).foldl max h.price
      rcases List.mem_cons.mp hpt with he | he
      · subst he
        exact le_foldl_max_init _ _
      · exact le_foldl_max_mem _ _ _ (List.mem_map_of_mem PricePoint.price he)

theorem currentPrice_eq_getLast (history : List PricePoint) (h : history ≠ []) :
    currentPrice history = (history.getLast h).price := by
  unfold currentPrice
  rw [List.getLast?_eq_getLast_of_ne_nil h]
  rfl

/-- The search loop of `d3.bisector((d) => d.time).left` on `history`:
while `lo < hi`, probe `mid = (lo + hi) >>> 1` and move `lo` past `mid` when
`history[mid].time < x0`, else close `hi` down to `mid`; answer `lo`. -/
def bisectLoop (history : List PricePoint) (x0 : ℚ) (lo hi : ℕ) : ℕ :=
  if h : lo < hi then
    if (history.getD ((lo + hi) / 2) ⟨0, 0⟩).time < x0 then
      bisectLoop history x0 ((lo + hi) / 2 + 1) hi
    else
      bisectLoop history x0 lo ((lo + hi) / 2)
  else lo
termination_by hi - lo
decreasing_by
  · omega
  · omega

/-- The index computed in the `mousemove` handler:
`d3.bisector((d) => d.time).left(history, x0, 1)` — left bisection with the
low bound pinned at 1 and the high bound defaulting to `history.length`. -/
def bisectLeftTime (history : List PricePoint) (x0 : ℚ) : ℕ :=
  bisectLoop history x0 1 history.length

/-- The data lookup of the `mousemove` handler in `createTooltip`: bisect for
`i`, bail out when `i === 0 || i >= history.length`, read the bracketing
samples `d0 = history[i - 1]` and `d1 = history[i]`, bail out when either is
missing, and pick the sample nearer to `x0` in time. -/
def mousemoveSample (history : List PricePoint) (x0 : ℚ) : Option PricePoint :=
  let i := bisectLeftTime history x0
  if i = 0 ∨ i ≥ history.length then none
  else
    match history[i - 1]?, history[i]? with
    | some d0, some d1 => some (if x0 - d0.time > d1.time - x0 then d1 else d0)
    | _, _ => none

theorem bisectLoop_ge (history : List PricePoint) (x0 : ℚ) :
    ∀ (n lo hi : ℕ), hi - lo ≤ n → lo ≤ bisectLoop history x0 lo hi := by
  intro n
  induction n with
  | zero =>
      intro lo hi h
      rw [bisectLoop]
      split
      · omega
      · exact le_refl lo
  | succ n ih =>
      intro lo hi h
      rw [bisectLoop]
      split
      · rename_i hlt
        split
        · have := ih ((lo + hi) / 2 + 1) hi (by omega)
          omega
        · exact ih lo ((lo + hi) / 2) (by omega)
      · exact le_refl lo

theorem bisectLoop_le (history : List PricePoint) (x0 : ℚ) :
    ∀ (n lo hi : ℕ), hi - lo ≤ n → lo < hi → bisectLoop history x0 lo hi ≤ hi := by
  intro n
  induction n with
  | zero => intro lo hi h hlt; omega
  | succ n ih =>
      intro lo hi h hlt
      rw [bisectLoop]
      rw [dif_pos hlt]
      split
      · by_cases hlt2 : (lo + hi) / 2 + 1 < hi
        · exact ih ((lo + hi) / 2 + 1) hi (by omega) hlt2
        · rw [bisectLoop]
          rw [dif_neg hlt2]
          omega
      · by_cases hlt2 : lo < (lo + hi) / 2
        · have := ih lo ((lo + hi) / 2) (by omega) hlt2
          omega
        · rw [bisectLoop]
          rw [dif_neg hlt2]
          omega

/-- Outcome of the one-shot REST quote fetch attempted by `getInitialPrice`:
either a parsed price or a rejected/thrown fetch. -/
inductive FetchOutcome where
  | success (price : ℚ)
  | failure
deriving DecidableEq, Repr

/-- The state owned by `useBinanceTicker` (`price`, `history`, `isConnected`,
`error`), together with whether `startMockData` has been called and the seed
it was given. -/
structure FeedState where
  price : Option ℚ
  history : List PricePoint
  isConnected : Bool
  error : Option String
  mockStarted : Bool
  mockSeed : Option ℚ
deriving DecidableEq, Repr

/-- The initial `useState` values of `useBinanceTicker`: null price, empty
history, disconnected, no error, generator not yet started. -/
def initialFeedState : FeedState :=
  { price := none
    history := []
    isConnected := false
    error := none
    mockStarted := false
    mockSeed := none }

/-- `getInitialPrice` from the source: on a successful fetch it sets the
price state, seeds the history with one sample and returns the fetched
price; on any fetch/parse rejection the `catch` swallows the error and
returns the fallback `50000` without touching any state. -/
def getInitialPrice (now : ℚ) (outcome : FetchOutcome) (s : FeedState) :
    FeedState × ℚ :=
  match outcome with
  | .success p => ({ s with price := some p, history := [⟨now, p⟩] }, p)
  | .failure => (s, 50000)

/-- The `initialize` routine of `useBinanceTicker`: await `getInitialPrice`,
then start the mock generator with the returned price and set
`isConnected` to `true`.  Its own `catch` (which would set the error state
and reseed at 50000) is reachable only if `getInitialPrice` itself throws,
which it cannot — `getInitialPrice` catches every fetch failure internally. -/
def initializeFeed (now : ℚ) (outcome : FetchOutcome) (s : FeedState) : FeedState :=
  let r := getInitialPrice now outcome s
  { r.1 with mockStarted := true, mockSeed := some r.2, isConnected := true }

theorem updateMarketData_high_le (r1 r2 : ℚ) (prev : MarketData) (price : ℚ) :
    prev.high24h ≤ (updateMarketData r1 r2 prev price).high24h := by
  unfold updateMarketData updateMarketDataRef
  split
  · exact le_max_left _ _
  · exact le_refl _

theorem updateMarketData_low_ge (r1 r2 : ℚ) (prev : MarketData) (price : ℚ) :
    (updateMarketData r1 r2 prev price).low24h ≤ prev.low24h := by
  unfold updateMarketData updateMarketDataRef
  split
  · exact min_le_left _ _
  · exact le_refl _

theorem runMarketUpdates_high_le (s0 : MarketData) (updates : List (ℚ × ℚ × ℚ)) :
    s0.high24h ≤ (runMarketUpdates s0 updates).high24h := by
  induction updates generalizing s0 with
  | nil => exact le_refl _
  | cons u us ih =>
      exact le_trans (updateMarketData_high_le u.2.1 u.2.2 s0 u.1) (ih _)

theorem runMarketUpdates_low_ge (s0 : MarketData) (updates : List (ℚ × ℚ × ℚ)) :
    (runMarketUpdates s0 updates).low24h ≤ s0.low24h := by
  induction updates generalizing s0 with
  | nil => exact le_refl _
  | cons u us ih =>
      exact le_trans (ih _) (updateMarketData_low_ge u.2.1 u.2.2 s0 u.1)

theorem updateMarketData_low_le_high (r1 r2 : ℚ) (s : MarketData) (price : ℚ)
    (h : s.low24h ≤ s.high24h) :
    (updateMarketData r1 r2 s price).low24h ≤ (updateMarketData r1 r2 s price).high24h := by
  unfold updateMarketData updateMarketDataRef
  split
  · exact le_trans (min_le_right _ _) (le_max_right _ _)
  · exact h

theorem runMarketUpdates_low_le_high (updates : List (ℚ × ℚ × ℚ)) :
    ∀ s0 : MarketData, s0.low24h ≤ s0.high24h →
      (runMarketUpdates s0 updates).low24h ≤ (runMarketUpdates s0 updates).high24h := by
  induction updates with
  | nil => intro s0 h; exact h
  | cons u us ih =>
      intro s0 h
      exact ih _ (updateMarketData_low_le_high u.2.1 u.2.2 s0 u.1 h)

/-- C1 counterexample: the claim says that on fetch failure the hook sets the
exposed price to 50000 and the error field to a non-null message.  Running
`initialize` on the failure outcome from the initial hook state leaves both
`error` and `price` at `none`: the fetch failure is swallowed inside
`getInitialPrice`, so the `catch` in `initialize` that would set the error
never runs, and no `setPrice` call happens on the failure path. -/
theorem c1_failure_leaves_error_and_price_null :
    (initializeFeed 0 .failure initialFeedState).error = none ∧
    (initializeFeed 0 .failure initialFeedState).price = none :=
  ⟨rfl, rfl⟩

/-- C1 (amended): on any fetch outcome `initialize` starts the synthetic tick
generator and sets `isConnected` to true; on fetch failure the generator is
seeded with the fallback price 50000, while the error field and the exposed
price remain null (the failure is swallowed inside `getInitialPrice`). -/
theorem c1_feed_failure_behavior (now : ℚ) (outcome : FetchOutcome) :
    (initializeFeed now outcome initialFeedState).mockStarted = true ∧
    (initializeFeed now outcome initialFeedState).isConnected = true ∧
    (initializeFeed now .failure initialFeedState).mockSeed = some 50000 ∧
    (initializeFeed now .failure initialFeedState).error = none ∧
    (initializeFeed now .failure initialFeedState).price = none := by
  cases outcome with
  | success p => exact ⟨rfl, rfl, rfl, rfl, rfl⟩
  | failure => exact ⟨rfl, rfl, rfl, rfl, rfl⟩

/-- C2: `updateMarketData` constructs a fresh snapshot iff the new price
clears the hysteresis band (`price > high24h * 1.001` or
`price < low24h * 0.999`); when eligible the new snapshot ratchets
`high24h` to `max high24h price` and `low24h` to `min low24h price`; when
not eligible the previous snapshot itself is returned.  On the default
snapshot, `updateMarketData 53000` yields `high24h = 53000` exactly and
`updateMarketData 52460` is a no-op. -/
theorem c2_updateMarketData_spec (prev : MarketData) (price r1 r2 : ℚ) :
    ((updateMarketDataRef r1 r2 prev price).1 = true ↔
      (price > prev.high24h * (1001/1000) ∨ price < prev.low24h * (999/1000))) ∧
    (price > prev.high24h * (1001/1000) ∨ price < prev.low24h * (999/1000) →
      (updateMarketDataRef r1 r2 prev price).2.high24h = max prev.high24h price ∧
      (updateMarketDataRef r1 r2 prev price).2.low24h = min prev.low24h price) ∧
    (¬(price > prev.high24h * (1001/1000) ∨ price < prev.low24h * (999/1000)) →
      updateMarketDataRef r1 r2 prev price = (false, prev)) ∧
    (updateMarketDataRef r1 r2 initialMarketData 53000).2.high24h = 53000 ∧
    updateMarketDataRef r1 r2 initialMarketData 52460 = (false, initialMarketData) := by
  refine ⟨?_, ?_, ?_, ?_, ?_⟩
  · unfold updateMarketDataRef
    split
    · rename_i hc; simpa using hc
    · rename_i hc; simpa using hc
  · intro hc
    unfold updateMarketDataRef
    rw [if_pos hc]
    exact ⟨rfl, rfl⟩
  · intro hc
    unfold updateMarketDataRef
    rw [if_neg hc]
  · have hc : (53000 : ℚ) > initialMarketData.high24h * (1001/1000) ∨
        (53000 : ℚ) < initialMarketData.low24h * (999/1000) := by
      left
      show (53000 : ℚ) > 52450 * (1001/1000)
      norm_num
    unfold updateMarketDataRef
    rw [if_pos hc]
    show max initialMarketData.high24h 53000 = 53000
    show max (52450 : ℚ) 53000 = 53000
    norm_num
  · have hc : ¬((52460 : ℚ) > initialMarketData.high24h * (1001/1000) ∨
        (52460 : ℚ) < initialMarketData.low24h * (999/1000)) := by
      intro hor
      rcases hor with hh | hl
      · have h1 : (52460 : ℚ) > 52450 * (1001/1000) := hh
        norm_num at h1
      · have h1 : (52460 : ℚ) < 48920 * (999/1000) := hl
        norm_num at h1
    unfold updateMarketDataRef
    rw [if_neg hc]

/-- C2 witness: the eligibility and no-op branches evaluated on the default
snapshot with concrete random draws. -/
theorem c2_witness :
    ((3 : ℚ) > initialMarketData.high24h * (1001/1000) ∨
        (3 : ℚ) < initialMarketData.low24h * (999/1000)) ∧
    (updateMarketDataRef 0 0 initialMarketData 3).2.high24h
        = max initialMarketData.high24h 3 ∧
    (updateMarketDataRef 0 0 initialMarketData 3).2.low24h
        = min initialMarketData.low24h 3 := by
  have hc : (3 : ℚ) > initialMarketData.high24h * (1001/1000) ∨
      (3 : ℚ) < initialMarketData.low24h * (999/1000) := by
    right
    show (3 : ℚ) < 48920 * (999/1000)
    norm_num
  exact ⟨hc, (c2_updateMarketData_spec initialMarketData 3 0 0).2.1 hc⟩

/-- C3: appending N ticks through the history buffer leaves exactly the last
`min N maxPoints` ticks in arrival order: for `N > maxPoints` the length is
pinned at `maxPoints` and the contents are the last `maxPoints` ticks
(oldest evicted first); for `N ≤ maxPoints` all N ticks are retained. -/
theorem c3_history_buffer (maxPoints : ℕ) (ticks : List PricePoint) :
    runHistory maxPoints ticks = ticks.drop (ticks.length - maxPoints) ∧
    (ticks.length > maxPoints →
      (runHistory maxPoints ticks).length = maxPoints) ∧
    (ticks.length ≤ maxPoints → runHistory maxPoints ticks = ticks) := by
  refine ⟨runHistory_eq maxPoints ticks, ?_, ?_⟩
  · intro h
    rw [runHistory_eq maxPoints ticks, List.length_drop]
    omega
  · intro h
    rw [runHistory_eq maxPoints ticks]
    have h0 : ticks.length - maxPoints = 0 := by omega
    rw [h0, List.drop_zero]

/-- C3 witness: three ticks through a buffer of capacity two keep the last
two in order. -/
theorem c3_witness :
    (([⟨0, 1⟩, ⟨1, 2⟩, ⟨2, 3⟩] : List PricePoint).length > 2) ∧
    (runHistory 2 [⟨0, 1⟩, ⟨1, 2⟩, ⟨2, 3⟩]).length = 2 :=
  ⟨by decide, (c3_history_buffer 2 [⟨0, 1⟩, ⟨1, 2⟩, ⟨2, 3⟩]).2.1 (by decide)⟩

/-- C5: every single `updateMarketData` call returns a snapshot with
`high24h` no smaller and `low24h` no larger than before, so across any
sequence of calls `high24h` is monotonically non-decreasing and `low24h`
monotonically non-increasing. -/
theorem c5_monotonic_ratchet :
    (∀ (prev : MarketData) (price r1 r2 : ℚ),
      prev.high24h ≤ (updateMarketData r1 r2 prev price).high24h ∧
      (updateMarketData r1 r2 prev price).low24h ≤ prev.low24h) ∧
    (∀ (s0 : MarketData) (updates : List (ℚ × ℚ × ℚ)),
      s0.high24h ≤ (runMarketUpdates s0 updates).high24h ∧
      (runMarketUpdates s0 updates).low24h ≤ s0.low24h) :=
  ⟨fun prev price r1 r2 =>
      ⟨updateMarketData_high_le r1 r2 prev price,
        updateMarketData_low_ge r1 r2 prev price⟩,
    fun s0 updates =>
      ⟨runMarketUpdates_high_le s0 updates, runMarketUpdates_low_ge s0 updates⟩⟩

/-- C6: `addTrade` prepends the new trade and truncates to the first 10, the
trade list built by any sequence of calls is the reverse of the arrivals
capped at 10 (so its length never exceeds 10 and eviction drops the oldest,
tail entries), and 12 calls on the empty list leave exactly 10 entries with
the two oldest evicted. -/
theorem c6_addTrade_cap {α : Type} (t : α) (prev : List α) (ts : List α) :
    addTrade t prev = (t :: prev).take 10 ∧
    (addTrade t prev).length ≤ 10 ∧
    runTrades ts = ts.reverse.take 10 ∧
    (runTrades ts).length = min ts.length 10 ∧
    (ts.length = 12 →
      (runTrades ts).length = 10 ∧ runTrades ts = (ts.drop 2).reverse) := by
  refine ⟨rfl, ?_, runTrades_eq ts, ?_, ?_⟩
  · unfold addTrade
    exact List.length_take_le 10 (t :: prev)
  · rw [runTrades_eq ts]
    simp only [List.length_take, List.length_reverse]
    omega
  · intro h12
    constructor
    · rw [runTrades_eq ts]
      simp only [List.length_take, List.length_reverse, h12]
      omega
    · rw [runTrades_eq ts, List.take_reverse, h12]

/-- C6 witness: twelve trades leave ten, the two oldest gone. -/
theorem c6_witness :
    (List.range 12).length = 12 ∧
    (runTrades (List.range 12)).length = 10 ∧
    runTrades (List.range 12) = ((List.range 12).drop 2).reverse :=
  ⟨by decide,
    ((c6_addTrade_cap 0 [] (List.range 12)).2.2.2.2 (by decide)).1,
    ((c6_addTrade_cap 0 [] (List.range 12)).2.2.2.2 (by decide)).2⟩

/-- C4: one completed playback cycle dequeues exactly the head of the queue,
appends it to the working series and evicts the series' oldest element, so
the series length is restored after every completed cycle; fully processing
the queue empties it and leaves the series equal to the original series
extended by all queued ticks with the same number of oldest points scrolled
off, and after the (i+1)-st cycle the newest rendered point is exactly the
i-th enqueued tick — every tick rendered in arrival order, exactly once. -/
theorem c4_animation_scheduler (s : AnimState) (q : ℚ) (qs series : List ℚ)
    (b : Bool) (i : ℕ) :
    runAnimationCycleStep ⟨q :: qs, series, b⟩
        = ⟨qs, (series ++ [q]).drop 1, true⟩ ∧
    (series ≠ [] → (series ++ [q]).drop 1 = series.drop 1 ++ [q]) ∧
    (∀ n : ℕ, (runCycles s n).series.length = s.series.length) ∧
    (runCycles s s.dataQueue.length).dataQueue = [] ∧
    (runCycles s s.dataQueue.length).series
        = (s.series ++ s.dataQueue).drop s.dataQueue.length ∧
    (i < s.dataQueue.length → s.series ≠ [] →
      (runCycles s (i + 1)).series.getLast? = s.dataQueue[i]?) := by
  refine ⟨rfl, ?_, fun n => runCycles_series_length n s, ?_, ?_,
    fun hi hs => runCycles_rendered_point s i hi hs⟩
  · intro hs
    have h1 : (1 : ℕ) ≤ series.length := List.length_pos.mpr hs
    exact List.drop_append_of_le_length h1
  · have := (runCycles_eq s.dataQueue.length s (le_refl _)).1
    rw [this, List.drop_length]
  · have := (runCycles_eq s.dataQueue.length s (le_refl _)).2
    rw [this, List.take_length]

/-- C4 witness: a three-point series with two queued ticks; after the first
completed cycle the newest rendered point is the first queued tick. -/
theorem c4_witness :
    (([1, 2, 3] : List ℚ) ≠ []) ∧ (0 < ([7, 8] : List ℚ).length) ∧
    (runCycles ⟨[7, 8], [1, 2, 3], true⟩ (0 + 1)).series.getLast?
      = ([7, 8] : List ℚ)[0]? :=
  ⟨by decide, by decide,
    (c4_animation_scheduler ⟨[7, 8], [1, 2, 3], true⟩ 0 [] [] true 0).2.2.2.2.2
      (by decide) (by decide)⟩

/-- C7: for a non-empty history the y-scale domain of `createScales` is
`[min (c - pad) minPrice, max (c + pad) maxPrice]` where `c` is the last
sample's price and `pad = c * max 0.001 (|priceChange|/100 * 0.01)`, and
every price in the history lies inside that domain, so the line path never
clips. -/
theorem c7_yDomain_spec (history : List PricePoint) (priceChange : ℚ)
    (h : history ≠ []) :
    (yDomain history priceChange).1
        = min ((history.getLast h).price -
            (history.getLast h).price * max (1/1000) (|priceChange| / 100 * (1/100)))
          (minPrice history) ∧
    (yDomain history priceChange).2
        = max ((history.getLast h).price +
            (history.getLast h).price * max (1/1000) (|priceChange| / 100 * (1/100)))
          (maxPrice history) ∧
    ∀ pt ∈ history,
      (yDomain history priceChange).1 ≤ pt.price ∧
      pt.price ≤ (yDomain history priceChange).2 := by
  refine ⟨?_, ?_, ?_⟩
  · show min (currentPrice history - yPaddingAmount history priceChange)
        (minPrice history) = _
    rw [yPaddingAmount, currentPrice_eq_getLast history h]
  · show max (currentPrice history + yPaddingAmount history priceChange)
        (maxPrice history) = _
    rw [yPaddingAmount, currentPrice_eq_getLast history h]
  · intro pt hpt
    constructor
    · exact le_trans (min_le_right _ _) (minPrice_le_mem history pt hpt)
    · exact le_trans (le_maxPrice_mem history pt hpt) (le_max_right _ _)

/-- C7 witness: a concrete two-sample history; both samples lie inside the
computed y-domain. -/
theorem c7_witness :
    (([⟨0, 50000⟩, ⟨1000, 50100⟩] : List PricePoint) ≠ []) ∧
    ∀ pt ∈ ([⟨0, 50000⟩, ⟨1000, 50100⟩] : List PricePoint),
      (yDomain [⟨0, 50000⟩, ⟨1000, 50100⟩] 5).1 ≤ pt.price ∧
      pt.price ≤ (yDomain [⟨0, 50000⟩, ⟨1000, 50100⟩] 5).2 :=
  ⟨by decide,
    (c7_yDomain_spec [⟨0, 50000⟩, ⟨1000, 50100⟩] 5 (by decide)).2.2⟩

/-- C8: each playback cycle's transition duration is
`500 / (1 + queueDepth * 0.1)` with the queue depth measured after the head
was dequeued; the duration never exceeds 500 and strictly decreases as the
queue depth grows. -/
theorem c8_scroll_duration (s : AnimState) (q : ℚ) (rest : List ℚ) (n m : ℕ) :
    (s.dataQueue = q :: rest → cycleDuration s = some (scrollDuration rest.length)) ∧
    scrollDuration n = 500 / (1 + (n : ℚ) * (1/10)) ∧
    scrollDuration n ≤ 500 ∧
    (n < m → scrollDuration m < scrollDuration n) := by
  have hpos : ∀ k : ℕ, (0 : ℚ) < 1 + (k : ℚ) * (1/10) := by
    intro k
    have hk : (0 : ℚ) ≤ (k : ℚ) := Nat.cast_nonneg k
    linarith
  refine ⟨?_, rfl, ?_, ?_⟩
  · intro hq
    unfold cycleDuration
    rw [hq]
  · rw [scrollDuration, div_le_iff₀ (hpos n)]
    have hk : (0 : ℚ) ≤ (n : ℚ) := Nat.cast_nonneg n
    nlinarith
  · intro hnm
    have hcast : (n : ℚ) < (m : ℚ) := by exact_mod_cast hnm
    have hlt : 1 + (n : ℚ) * (1/10) < 1 + (m : ℚ) * (1/10) := by linarith
    exact div_lt_div_of_pos_left (by norm_num) (hpos n) hlt

/-- C8 witness: with two ticks left after the dequeue the cycle's duration is
`scrollDuration 2`, and a deeper queue plays strictly faster. -/
theorem c8_witness :
    ((⟨[3, 4, 5], [], false⟩ : AnimState).dataQueue = 3 :: [4, 5] ∧
      cycleDuration ⟨[3, 4, 5], [], false⟩ = some (scrollDuration 2)) ∧
    ((0 : ℕ) < 1 ∧ scrollDuration 1 < scrollDuration 0) :=
  ⟨⟨rfl, (c8_scroll_duration ⟨[3, 4, 5], [], false⟩ 3 [4, 5] 0 1).1 rfl⟩,
    ⟨by decide, (c8_scroll_duration ⟨[3, 4, 5], [], false⟩ 3 [4, 5] 0 1).2.2.2
      (by decide)⟩⟩

/-- C9: the invariant `low24h ≤ high24h` holds at the initial snapshot, is
preserved by every `updateMarketData` call, and therefore holds in every
snapshot reachable from the initial one. -/
theorem c9_low_le_high (s : MarketData) (price r1 r2 : ℚ) :
    initialMarketData.low24h ≤ initialMarketData.high24h ∧
    (s.low24h ≤ s.high24h →
      (updateMarketData r1 r2 s price).low24h
        ≤ (updateMarketData r1 r2 s price).high24h) ∧
    ∀ updates : List (ℚ × ℚ × ℚ),
      (runMarketUpdates initialMarketData updates).low24h
        ≤ (runMarketUpdates initialMarketData updates).high24h := by
  have hinit : initialMarketData.low24h ≤ initialMarketData.high24h := by
    show (48920 : ℚ) ≤ 52450
    norm_num
  exact ⟨hinit, updateMarketData_low_le_high r1 r2 s price,
    fun updates => runMarketUpdates_low_le_high updates initialMarketData hinit⟩

/-- C9 witness: the preservation step applied to the initial snapshot at a
concrete price. -/
theorem c9_witness :
    initialMarketData.low24h ≤ initialMarketData.high24h ∧
    (updateMarketData 0 0 initialMarketData 60000).low24h
      ≤ (updateMarketData 0 0 initialMarketData 60000).high24h :=
  ⟨by decide,
    (c9_low_le_high initialMarketData 60000 0 0).2.1 (by decide)⟩

/-- C10: the `mousemove` handler's bracketing lookup is always in bounds:
the bisected index is at least 1, the handler returns nothing when
`i = 0 || i >= history.length` (including every history shorter than two
samples), and otherwise both `history[i - 1]` and `history[i]` exist and
the handler produces a sample. -/
theorem c10_tooltip_safe (history : List PricePoint) (x0 : ℚ) :
    1 ≤ bisectLeftTime history x0 ∧
    (bisectLeftTime history x0 = 0 ∨ bisectLeftTime history x0 ≥ history.length →
      mousemoveSample history x0 = none) ∧
    (¬(bisectLeftTime history x0 = 0 ∨
        bisectLeftTime history x0 ≥ history.length) →
      bisectLeftTime history x0 - 1 < history.length ∧
      bisectLeftTime history x0 < history.length ∧
      (history[bisectLeftTime history x0 - 1]?).isSome ∧
      (history[bisectLeftTime history x0]?).isSome ∧
      (mousemoveSample history x0).isSome) ∧
    (history.length < 2 → mousemoveSample history x0 = none) := by
  have hge : 1 ≤ bisectLeftTime history x0 :=
    bisectLoop_ge history x0 history.length 1 history.length (by omega)
  have hnone : bisectLeftTime history x0 = 0 ∨
      bisectLeftTime history x0 ≥ history.length →
      mousemoveSample history x0 = none := by
    intro h
    unfold mousemoveSample
    simp only
    rw [if_pos h]
  refine ⟨hge, hnone, ?_, ?_⟩
  · intro h
    push_neg at h
    obtain ⟨h0, hlt⟩ := h
    have hi1 : bisectLeftTime history x0 - 1 < history.length := by omega
    have hd0 : (history[bisectLeftTime history x0 - 1]?).isSome := by
      rw [List.getElem?_eq_getElem hi1]; rfl
    have hd1 : (history[bisectLeftTime history x0]?).isSome := by
      rw [List.getElem?_eq_getElem hlt]; rfl
    refine ⟨hi1, hlt, hd0, hd1, ?_⟩
    unfold mousemoveSample
    simp only
    rw [if_neg (by push_neg; exact ⟨h0, hlt⟩)]
    rw [List.getElem?_eq_getElem hi1, List.getElem?_eq_getElem hlt]
    rfl
  · intro h
    apply hnone
    right
    omega

/-- C10 witness: a single-sample history always yields no tooltip sample. -/
theorem c10_witness :
    (([⟨0, 10⟩] : List PricePoint).length < 2) ∧
    mousemoveSample [⟨0, 10⟩] 5 = none :=
  ⟨by decide, (c10_tooltip_safe [⟨0, 10⟩] 5).2.2.2 (by decide)⟩

end Crypto
